import Mathlib

/-!
Verification of the AnimePahe downloader core against its specification.

The Python sources embedded here are `src/web/core/kwik.py`,
`src/animepahe_dl.py` and `src/web/core/downloader.py`.  Python strings are
modelled as `List Char` (for the codec, whose inputs are ASCII) or as lists of
code points (`List Nat`) where Python `chr` may produce lone surrogates that
`Char` cannot represent.  Python exceptions are modelled with `Option` /
`Except`: a `none` / `.error` result marks the place where the Python code
raises.  `while` loops whose bound is data-dependent are written with an
explicit fuel argument together with a lemma showing the chosen fuel suffices,
so that every definition evaluates by `decide` / `rfl`.
-/

namespace AnimepaheDL

/-! ## AlphabetCodec: `_base_convert` (kwik.py 24-48) and `_0xe16c` (animepahe_dl.py 13-31) -/

/-- The fixed 64-symbol alphabet `self.base_alphabet` (kwik.py line 21,
animepahe_dl.py line 11): digits, lowercase, uppercase, `+`, `/`. -/
def baseAlphabet : List Char :=
  "0123456789abcdefghijklmnopqrstuvwxyzABCDEFGHIJKLMNOPQRSTUVWXYZ+/".data

/-- Python `self.base_alphabet[:b]` — the truncated alphabet for base `b`. -/
def alphaPrefix (b : Nat) : List Char := baseAlphabet.take b

/-- Python `str.find` on a list of characters: index of the first occurrence,
`none` standing for the `-1` Python returns. -/
def findPos (c : Char) : List Char → Option Nat
  | [] => none
  | d :: ds => if d = c then some 0 else (findPos c ds).map (· + 1)

/-- The magnitude contributed by one character in the source-base loop of
`_base_convert` (kwik.py 34-37): its index in the truncated alphabet, or `0`
when `find` returned `-1` (the `if pos != -1` guard skips the addition). -/
def digitVal (b : Nat) (c : Char) : Nat :=
  match findPos c (alphaPrefix b) with
  | some p => p
  | none => 0

/-- The source-base accumulation loop of `_base_convert` (kwik.py 33-37):
`for idx, char in enumerate(reversed(input_str)): decimal_value += pos * from_base ** idx`.
The list argument is the reversed input, `idx` the running exponent. -/
def toDecAux (b : Nat) : List Char → Nat → Nat
  | [], _ => 0
  | c :: rest, idx => digitVal b c * b ^ idx + toDecAux b rest (idx + 1)

/-- `AlphabetCodec.toDecimal`: the source-base half of `_base_convert`
(kwik.py 33-37) / `_0xe16c` (animepahe_dl.py 17-21). -/
def toDecimal (s : List Char) (b : Nat) : Nat := toDecAux b s.reverse 0

/-- The `while j > 0: k = i[j % ms] + k; j //= ms` digit-extraction loop of
`_0xe16c` (animepahe_dl.py 26-29) / `_base_convert` (kwik.py 43-46).  `fuel`
bounds the iteration count (the value strictly decreases for bases ≥ 2, so
`fuel = v` suffices — see `fromDecLoop_eq_digits`); `none` marks the two ways
the Python loop can go wrong: an index outside the truncated alphabet
(`b > 64`) or non-termination (`b ≤ 1`, surfacing here as fuel exhaustion). -/
def fromDecLoop (b : Nat) : Nat → Nat → List Char → Option (List Char)
  | _, 0, acc => some acc
  | 0, _ + 1, _ => none
  | fuel + 1, v + 1, acc =>
    match (alphaPrefix b).get? ((v + 1) % b) with
    | none => none
    | some c => fromDecLoop b fuel ((v + 1) / b) (c :: acc)

/-- `AlphabetCodec.fromDecimal`: the target-base half of `_0xe16c`
(animepahe_dl.py 23-29): `if j == 0: return i[0]` — the first symbol of the
truncated target alphabet — else the extraction loop.  (`_base_convert` in
kwik.py returns the integer `0` instead at line 40; rendered as a string that
is the same one-character result `"0"`.) -/
def fromDecimal (v : Nat) (b : Nat) : Option (List Char) :=
  if v = 0 then ((alphaPrefix b).get? 0).map ([·])
  else fromDecLoop b v v []

/-- Python `int(s)` as applied by `_base_convert` (kwik.py 48) and `_0xe16c`
(animepahe_dl.py 31) to the rendered digit string: the decimal value when the
string is non-empty and all its characters are decimal digits, `none`
(ValueError) otherwise. -/
def parseDec (l : List Char) : Option Nat :=
  if l ≠ [] ∧ l.all (fun c => '0' ≤ c && c ≤ '9') then
    some (l.foldl (fun acc c => acc * 10 + (c.toNat - '0'.toNat)) 0)
  else none

/-- `KwikPahe._base_convert` (kwik.py 24-48): convert `input_str` from
`from_base` to a decimal value, return `0` directly for value zero (line 39-40),
otherwise render the value in `to_base` and apply Python `int(...)` to the
rendered string (line 48). -/
def base_convert (s : List Char) (fromBase toBase : Nat) : Option Nat :=
  let decimalValue := toDecimal s fromBase
  if decimalValue = 0 then some 0
  else (fromDecLoop toBase decimalValue decimalValue []).bind parseDec

/-! ## PayloadDecoder: `decode_obfuscated_js` (kwik.py 50-82) / `decode_js_style` (animepahe_dl.py 33-48) -/

/-- Python `segment.replace(old, new)` where `old` is a single character:
every occurrence of `old` is replaced by the string `new`. -/
def replaceChar (l : List Char) (old : Char) (new : List Char) : List Char :=
  l.flatMap (fun c => if c = old then new else [c])

/-- Python `str(j)`: the decimal digit string of a natural number. -/
def natDigits (n : Nat) : List Char := Nat.toDigits 10 n

/-- The substitution loop of `decode_obfuscated_js` (kwik.py 73-75):
`for j in range(len(key)): segment = segment.replace(key[j], str(j))` —
sequential, so a replacement may rewrite digits introduced by an earlier one,
exactly as in Python. -/
def substitute (key : List Char) (seg : List Char) : List Char :=
  (List.range key.length).foldl
    (fun s j => replaceChar s (key.getD j ' ') (natDigits j)) seg

/-- The scan loop of `decode_obfuscated_js` (kwik.py 63-81), parameterized by
the conversion `val` applied to each substituted segment.  One outer iteration
collects characters up to the delimiter `key[delimIdx]` (the inner `while` at
lines 69-71; the delimiter itself is consumed by `i += 1` at line 80 and never
emitted), substitutes, converts, subtracts the offset and produces one code
point (`chr` accepts exactly `[0, 0x10FFFF]`; anything else is a `ValueError`,
modelled as `none`).  `key.get? delimIdx = none` models the `IndexError` Python
raises evaluating `key[base]` in the inner loop guard (only reached while
`i < len(encoded)`).  `fuel ≥ length` suffices since every iteration consumes
at least one character (`decodeFuel_fuel_irrel`). -/
def decodeFuel (val : List Char → Option Nat) (key : List Char) (offset : Nat)
    (delimIdx : Nat) : Nat → List Char → Option (List Nat)
  | _, [] => some []
  | 0, _ :: _ => none
  | fuel + 1, c :: rest =>
    match key.get? delimIdx with
    | none => none
    | some delim =>
      let seg := (c :: rest).takeWhile (fun x => x ≠ delim)
      let rest' := (c :: rest).drop (seg.length + 1)
      match val (substitute key seg) with
      | none => none
      | some v =>
        let code : Int := (v : Int) - (offset : Int)
        if 0 ≤ code ∧ code ≤ 1114111 then
          (decodeFuel val key offset delimIdx fuel rest').map (code.toNat :: ·)
        else none

/-- The scan loop with its sufficient fuel. -/
def decodeWith (val : List Char → Option Nat) (key : List Char) (offset : Nat)
    (delimIdx : Nat) (encoded : List Char) : Option (List Nat) :=
  decodeFuel val key offset delimIdx encoded.length encoded

/-- `KwikPahe.decode_obfuscated_js` (kwik.py 50-82) / `decode_js_style`
(animepahe_dl.py 33-48).  The `base` parameter serves both as the delimiter
index into `key` (line 69: `key[base]`) and as the source base of the
conversion (line 78: `self._base_convert(segment, base, 10)`).  The result is
the list of code points handed to `chr`; `none` models an exception escaping
the function. -/
def decode_obfuscated_js (encoded key : List Char) (offset : Nat) (base : Nat) :
    Option (List Nat) :=
  decodeWith (fun seg => base_convert seg base 10) key offset base encoded

/-- The decoding algorithm exactly as the claim words it: same scan,
substitution, offset subtraction and code-point production, but the
substituted segment is fed to `AlphabetCodec.toDecimal(segment, 10)` — source
base 10 — independent of the delimiter index. -/
def decodeClaimC1 (encoded key : List Char) (offset : Nat) (delimIdx : Nat) :
    Option (List Nat) :=
  decodeWith (fun seg => some (toDecimal seg 10)) key offset delimIdx encoded

/-- The claim amended: the substituted segment is fed to
`AlphabetCodec.toDecimal(segment, delimiterIndex)` — the source base is the
same number that selects the delimiter, as in the source. -/
def decodeAmendedC1 (encoded key : List Char) (offset : Nat) (delimIdx : Nat) :
    Option (List Nat) :=
  decodeWith (fun seg => some (toDecimal seg delimIdx)) key offset delimIdx encoded

/-! ## LinkResolver: `fetch_direct_link` (kwik.py 114-151) and `decode_kwik_page` (kwik.py 153-223) -/

/-- The response to the token POST (sent with `follow_redirects=False`),
as far as `fetch_direct_link` inspects it: the HTTP status and
`response.headers.get("location")` (`none` when the header is absent). -/
structure TokenPostResponse where
  status : Nat
  location : Option String
deriving DecidableEq, Repr

/-- `KwikPahe.fetch_direct_link` (kwik.py 139-151), as a function of the
response to the token POST.  Python falls through to the raise unless the
status is exactly 302 *and* `if location:` holds — truthiness, so a present
but empty `Location` header is rejected like an absent one. -/
def fetch_direct_link (resp : TokenPostResponse) : Except String String :=
  let failure : Except String String :=
    .error ("No redirect found from Kwik POST (status: " ++ toString resp.status ++ ")")
  if resp.status = 302 then
    match resp.location with
    | some loc => if loc = "" then failure else .ok loc
    | none => failure
  else failure

/-- What one attempt of `decode_kwik_page` (kwik.py 153-223) runs into, by the
branch the source takes:
* `fatalError`: a `KwikDecodeError` raised inside the attempt —
  `_fetch_with_retry` exhausting its own inner budget (line 112) or
  `fetch_direct_link` seeing a non-302 (line 151); re-raised at line 217-218.
* `patternNotFound`: the call-expression regex fails on the fresh page
  (lines 191-194) — retry with a fresh fetch.
* `fieldsNotFound`: `action=` or `value=` missing from the decoded text
  (lines 207-209) — retry with a fresh fetch.
* `bodyError`: any other exception in the `try` body (e.g. a transport error
  surfacing from the token POST itself, or a decode error) — retried while
  `retries > 1`, otherwise wrapped and raised (lines 219-223).
* `resolved`: the direct link was obtained (line 215). -/
inductive AttemptOutcome where
  | fatalError (msg : String)
  | patternNotFound
  | fieldsNotFound
  | bodyError (msg : String)
  | resolved (link : String)
deriving DecidableEq, Repr

/-- `KwikPahe.decode_kwik_page` (kwik.py 153-223) as a function of the
environment `env`, which maps the ordinal of each attempt to what that
attempt produces from its *fresh* fetch and processing — every retry re-enters with a
new attempt ordinal, so no state of a failed attempt can flow into the next.
`retries ≤ 0` raises `"Exceeded retry limit for Kwik decode"` (lines 170-171). -/
def decode_kwik_page (env : Nat → AttemptOutcome) (attempt : Nat) :
    Nat → Except String String
  | 0 => .error "Exceeded retry limit for Kwik decode"
  | r + 1 =>
    match env attempt with
    | .fatalError msg => .error msg
    | .patternNotFound => decode_kwik_page env (attempt + 1) r
    | .fieldsNotFound => decode_kwik_page env (attempt + 1) r
    | .bodyError msg =>
      if r + 1 > 1 then decode_kwik_page env (attempt + 1) r
      else .error ("Failed to decode Kwik page: " ++ msg)
    | .resolved link => .ok link

/-! ## DownloadManager (downloader.py) -/

/-- `DownloadTask` (downloader.py 18-35), restricted to the fields the claims
touch.  `error` is `None`-able as in the dataclass. -/
structure DTask where
  id : String
  url : String
  filename : String
  animeTitle : String
  status : String
  error : Option String
deriving DecidableEq, Repr

/-- The collections of `DownloadManager` (downloader.py 51-54): the FIFO
admission queue (front of the list = next to be dequeued), the active-task
dict as an association list, and the two history lists. -/
structure DMState where
  queue : List DTask
  active : List (String × DTask)
  completed : List DTask
  failed : List DTask
deriving DecidableEq, Repr

/-- The drain loop of `cancel_task` (downloader.py 324-341): the queue is
emptied front to back; a matching item is marked
`stopped` / `"Cancelled before starting"` and appended to `failed_tasks`,
every other item is kept (and later re-queued in the same order).
Returns (kept items, moved items, found). -/
def drainCancel (taskId : String) : List DTask → List DTask × List DTask × Bool
  | [] => ([], [], false)
  | t :: rest =>
    let res := drainCancel taskId rest
    if t.id = taskId then
      (res.1, { t with status := "stopped", error := some "Cancelled before starting" } :: res.2.1, true)
    else (t :: res.1, res.2.1, res.2.2)

/-- `DownloadManager.cancel_task` (downloader.py 314-343): an active task is
marked `stopping` and `True` returned; otherwise the queue is drained, the
matching items moved to failed-history, the rest restored in order, and
whether anything was found is returned. -/
def cancel_task (st : DMState) (taskId : String) : Bool × DMState :=
  if (st.active.map Prod.fst).contains taskId then
    let newActive := st.active.map
      (fun p => if p.1 = taskId then (p.1, { p.2 with status := "stopping" }) else p)
    (true, { st with active := newActive })
  else
    let res := drainCancel taskId st.queue
    (res.2.2, { st with queue := res.1, failed := st.failed ++ res.2.1 })

/-- The per-callback body of `_notify_progress` (downloader.py 75-83): the
callback is invoked inside `try`, and an exception is only printed — the
reified outcome records what the handler returned or raised, and the loop
continues with the next callback unconditionally. -/
def notifyLoop (t : DTask) : List (DTask → Except String Unit) → List (Except String Unit)
  | [] => []
  | cb :: rest => cb t :: notifyLoop t rest

/-- `DownloadManager._notify_progress` (downloader.py 75-83): the pair of the
subscriber list as it stands after the call (the loop never modifies
`_progress_callbacks`) and the reified outcome of the handler of each subscriber.
The function itself always returns normally — no handler error escapes to the
publisher. -/
def notify_progress (callbacks : List (DTask → Except String Unit)) (t : DTask) :
    List (DTask → Except String Unit) × List (Except String Unit) :=
  (callbacks, notifyLoop t callbacks)

/-- The character set removed by `_sanitize_filename` (downloader.py 85-87):
the nine characters of the raw-string literal at line 87. -/
def invalidChars : List Char := ['<', '>', ':', '"', '/', '\\', '|', '?', '*']

/-- `DownloadManager._sanitize_filename` (downloader.py 85-87):
a join that keeps exactly the characters not in `invalidChars`. -/
def sanitize_filename (s : List Char) : List Char :=
  s.filter (fun c => !(invalidChars.contains c))

/-- POSIX `os.path.join` for two components, as used at downloader.py 92 and
161: an absolute second component replaces the first, otherwise the parts are
joined with `/`. -/
def osJoin (a b : List Char) : List Char :=
  if b.head? = some '/' then b else a ++ '/' :: b

/-- `DownloadManager._get_anime_folder` (downloader.py 89-94): the sanitized
group label joined under the download root (directory creation elided). -/
def get_anime_folder (root title : List Char) : List Char :=
  osJoin root (sanitize_filename title)

/-- The filename `_download_file` actually writes to (downloader.py 154-161):
`task.filename` as stored, overridden by the *sanitized* Content-Disposition
filename when the response supplies one — the stored name itself is never
passed through the sanitizer. -/
def effectiveFilename (taskFilename : List Char) (contentDispName : Option (List Char)) :
    List Char :=
  match contentDispName with
  | some n => sanitize_filename n
  | none => taskFilename

/-- The full path `_download_file` opens (downloader.py 143, 161):
`os.path.join(self._get_anime_folder(task.anime_title), filename)`. -/
def download_filepath (root title taskFilename : List Char)
    (contentDispName : Option (List Char)) : List Char :=
  osJoin (get_anime_folder root title) (effectiveFilename taskFilename contentDispName)

/-! ## Auxiliary definitions used by the statements -/

/-- The digit character the extraction loop picks for digit value `d`
(`to_alphabet[j % ms]`). -/
def alphaChar (b d : Nat) : Char := (alphaPrefix b).getD d '0'

/-- Leading-zero normalisation as the round-trip property words it: leading
`'0'` symbols collapse, an all-zero numeral collapsing to the single zero
symbol (positional-numeral semantics, under which `000` and `0` are the same
numeral). -/
def stripLeadingZeros (s : List Char) : List Char :=
  let t := s.dropWhile (fun c => c == '0')
  if t.isEmpty then ['0'] else t

/-- The marking `cancel_task` applies to a pending task it removes
(downloader.py 330-331). -/
def cancelMark (t : DTask) : DTask :=
  { t with status := "stopped", error := some "Cancelled before starting" }

/-- The well-formedness condition under which the scan loop of
`decode_obfuscated_js` raises no exception: every delimiter lookup is in
range and every produced code point `val(segment) - offset` lies in the
interval accepted by `chr`, `[0, 0x10FFFF]`.  Mirrors `decodeFuel` segment by segment. -/
def segcodesOk (val : List Char → Option Nat) (key : List Char) (offset : Nat)
    (delimIdx : Nat) : Nat → List Char → Bool
  | _, [] => true
  | 0, _ :: _ => false
  | fuel + 1, c :: rest =>
    match key.get? delimIdx with
    | none => false
    | some delim =>
      let seg := (c :: rest).takeWhile (fun x => x ≠ delim)
      let rest' := (c :: rest).drop (seg.length + 1)
      match val (substitute key seg) with
      | none => false
      | some v =>
        decide (offset ≤ v) && decide (v ≤ offset + 1114111) &&
          segcodesOk val key offset delimIdx fuel rest'

/-- A concrete progress handler that raises (used to exercise
`_notify_progress`). -/
def raisingHandler : DTask → Except String Unit := fun _ => .error "boom"

/-- A concrete progress handler that returns normally. -/
def okHandler : DTask → Except String Unit := fun _ => .ok ()

/-- A concrete task used to exercise the download-manager operations. -/
def sampleTask : DTask :=
  ⟨"task-a", "http://e/1", "EP01_720p.mp4", "Show", "pending", none⟩

/-- A second concrete pending task. -/
def sampleTask2 : DTask :=
  ⟨"task-b", "http://e/2", "EP02_720p.mp4", "Show", "pending", none⟩

/-- A concrete manager state with two pending tasks and empty histories. -/
def sampleState : DMState := ⟨[sampleTask, sampleTask2], [], [], []⟩

/-! ## Supporting lemmas: the alphabet and `findPos` -/

theorem baseAlphabet_length : baseAlphabet.length = 64 := by decide

theorem alphaPrefix_length {b : Nat} (h : b ≤ 64) : (alphaPrefix b).length = b := by
  simp [alphaPrefix, baseAlphabet_length]
  omega

theorem alphaPrefix_get0 {b : Nat} (h : 1 ≤ b) : (alphaPrefix b).get? 0 = some '0' := by
  unfold alphaPrefix
  rw [List.get?_take h]
  decide

theorem alphaPrefix_cons {b : Nat} (h : 1 ≤ b) : ∃ t, alphaPrefix b = '0' :: t := by
  have h0 := alphaPrefix_get0 h
  cases hp : alphaPrefix b with
  | nil => rw [hp] at h0; simp [List.get?] at h0
  | cons c t =>
    rw [hp] at h0
    simp [List.get?] at h0
    exact ⟨t, by rw [h0]⟩

theorem findPos_some_lt {c : Char} {l : List Char} {p : Nat}
    (h : findPos c l = some p) : p < l.length := by
  induction l generalizing p with
  | nil => simp [findPos] at h
  | cons d ds ih =>
    by_cases hd : d = c
    · simp [findPos, hd] at h
      simp
      omega
    · simp [findPos, hd] at h
      obtain ⟨q, hq, rfl⟩ := h
      have := ih hq
      simp
      omega

theorem findPos_some_getD {c : Char} {l : List Char} {p : Nat} {d : Char}
    (h : findPos c l = some p) : l.getD p d = c := by
  induction l generalizing p with
  | nil => simp [findPos] at h
  | cons x xs ih =>
    by_cases hx : x = c
    · simp [findPos, hx] at h
      subst h
      simpa using hx
    · simp [findPos, hx] at h
      obtain ⟨q, hq, rfl⟩ := h
      simpa using ih hq

theorem findPos_of_mem {c : Char} {l : List Char} (h : c ∈ l) :
    ∃ p, findPos c l = some p := by
  induction l with
  | nil => simp at h
  | cons x xs ih =>
    by_cases hx : x = c
    · exact ⟨0, by simp [findPos, hx]⟩
    · have hm : c ∈ xs := by
        rcases List.mem_cons.mp h with h1 | h1
        · exact absurd h1.symm hx
        · exact h1
      obtain ⟨p, hp⟩ := ih hm
      exact ⟨p + 1, by simp [findPos, hx, hp]⟩

theorem findPos_none_of_not_mem {c : Char} {l : List Char} (h : c ∉ l) :
    findPos c l = none := by
  induction l with
  | nil => rfl
  | cons x xs ih =>
    have hx : x ≠ c := fun he => h (he ▸ List.mem_cons_self x xs)
    have hm : c ∉ xs := fun hc => h (List.mem_cons_of_mem _ hc)
    simp [findPos, hx, ih hm]

theorem findPos_eq_indexOf {c : Char} {l : List Char} (h : c ∈ l) :
    findPos c l = some (List.indexOf c l) := by
  induction l with
  | nil => simp at h
  | cons x xs ih =>
    by_cases hx : x = c
    · simp [findPos, hx, List.indexOf_cons]
    · have hm : c ∈ xs := by
        rcases List.mem_cons.mp h with h1 | h1
        · exact absurd h1.symm hx
        · exact h1
      have hbeq : (x == c) = false := beq_false_of_ne hx
      simp [findPos, hx, List.indexOf_cons, hbeq, ih hm, Bool.cond_eq_ite]

theorem digitVal_lt {b : Nat} {c : Char} (h64 : b ≤ 64) (hc : c ∈ alphaPrefix b) :
    digitVal b c < b := by
  obtain ⟨p, hp⟩ := findPos_of_mem hc
  have := findPos_some_lt hp
  rw [alphaPrefix_length h64] at this
  simp [digitVal, hp, this]

theorem digitVal_zero_char {b : Nat} (h : 1 ≤ b) : digitVal b '0' = 0 := by
  obtain ⟨t, ht⟩ := alphaPrefix_cons h
  simp [digitVal, ht, findPos]

theorem digitVal_ne_zero {b : Nat} {c : Char} (hb : 1 ≤ b)
    (hc : c ∈ alphaPrefix b) (hc0 : c ≠ '0') : digitVal b c ≠ 0 := by
  obtain ⟨p, hp⟩ := findPos_of_mem hc
  obtain ⟨t, ht⟩ := alphaPrefix_cons hb
  intro h0
  have hd : digitVal b c = p := by simp [digitVal, hp]
  rw [hd] at h0
  subst h0
  have := findPos_some_getD (d := '0') hp
  rw [ht] at this
  simp at this
  exact hc0 this.symm

theorem alphaGetD_digitVal {b : Nat} {c : Char} (hc : c ∈ alphaPrefix b) :
    (alphaPrefix b).getD (digitVal b c) '0' = c := by
  obtain ⟨p, hp⟩ := findPos_of_mem hc
  have hd : digitVal b c = p := by simp [digitVal, hp]
  rw [hd]
  exact findPos_some_getD hp

/-! ## Supporting lemmas: `toDecimal` as `Nat.ofDigits`, `fromDecLoop` as `Nat.digits` -/

theorem toDecAux_eq_ofDigits (b : Nat) (l : List Char) (idx : Nat) :
    toDecAux b l idx = b ^ idx * Nat.ofDigits b (l.map (digitVal b)) := by
  induction l generalizing idx with
  | nil => simp [toDecAux, Nat.ofDigits]
  | cons c rest ih =>
    simp only [toDecAux, List.map_cons, Nat.ofDigits_cons, ih (idx + 1)]
    ring

theorem toDecimal_eq_ofDigits (s : List Char) (b : Nat) :
    toDecimal s b = Nat.ofDigits b (s.reverse.map (digitVal b)) := by
  simp [toDecimal, toDecAux_eq_ofDigits]

theorem getD_of_get? {l : List Char} {n : Nat} {c d : Char}
    (h : l.get? n = some c) : l.getD n d = c := by
  rw [List.getD_eq_get?, h]
  rfl

theorem get?_of_lt_length {l : List Char} {n : Nat} (h : n < l.length) (d : Char) :
    l.get? n = some (l.getD n d) := by
  rw [List.getD_eq_get?]
  cases hg : l.get? n with
  | none => rw [List.get?_eq_getElem?] at hg; simp [List.getElem?_eq_none_iff] at hg; omega
  | some c => rfl

theorem fromDecLoop_eq_digits {b : Nat} (hb : 2 ≤ b) (h64 : b ≤ 64) :
    ∀ (fuel v : Nat) (acc : List Char), v ≤ fuel →
      fromDecLoop b fuel v acc =
        some (((Nat.digits b v).reverse.map (alphaChar b)) ++ acc) := by
  intro fuel
  induction fuel with
  | zero =>
    intro v acc hv
    have : v = 0 := Nat.le_zero.mp hv
    subst this
    simp [fromDecLoop]
  | succ f ih =>
    intro v acc hv
    cases v with
    | zero => simp [fromDecLoop]
    | succ w =>
      have hmod : (w + 1) % b < (alphaPrefix b).length := by
        rw [alphaPrefix_length h64]
        exact Nat.mod_lt _ (by omega)
      have hget := get?_of_lt_length hmod '0'
      have hdivle : (w + 1) / b ≤ f := by
        have := Nat.div_lt_self (show 0 < w + 1 by omega) (show 1 < b by omega)
        omega
      simp only [fromDecLoop, hget]
      rw [ih ((w + 1) / b) _ hdivle]
      rw [Nat.digits_def' (by omega : 1 < b) (Nat.succ_pos w)]
      simp [alphaChar]

theorem fromDecimal_zero {b : Nat} (h : 1 ≤ b) : fromDecimal 0 b = some ['0'] := by
  have h0 := alphaPrefix_get0 h
  rw [List.get?_eq_getElem?] at h0
  simp [fromDecimal, h0]

theorem fromDecimal_eq_digits {b v : Nat} (hb : 2 ≤ b) (h64 : b ≤ 64) (hv : v ≠ 0) :
    fromDecimal v b = some ((Nat.digits b v).reverse.map (alphaChar b)) := by
  unfold fromDecimal
  rw [if_neg hv, fromDecLoop_eq_digits hb h64 v v _ le_rfl]
  simp

/-! ## Supporting lemmas: `int(...)` undoes the base-10 rendering -/

theorem alphaChar10_digit : ∀ d, d < 10 →
    (('0' ≤ alphaChar 10 d && alphaChar 10 d ≤ '9') = true ∧
      (alphaChar 10 d).toNat - '0'.toNat = d) := by decide

theorem parseDec_foldl (ds : List Nat) (hds : ∀ d ∈ ds, d < 10) (a : Nat) :
    (ds.map (alphaChar 10)).foldl (fun acc c => acc * 10 + (c.toNat - '0'.toNat)) a =
      a * 10 ^ ds.length + Nat.ofDigits 10 ds.reverse := by
  induction ds generalizing a with
  | nil => simp [Nat.ofDigits]
  | cons d rest ih =>
    have hd : d < 10 := hds d (List.mem_cons_self d rest)
    have hrest : ∀ x ∈ rest, x < 10 := fun x hx => hds x (List.mem_cons_of_mem _ hx)
    simp only [List.map_cons, List.foldl_cons, ih hrest, (alphaChar10_digit d hd).2,
      List.reverse_cons, Nat.ofDigits_append, List.length_cons, List.length_reverse]
    simp [Nat.ofDigits]
    ring

theorem parseDec_render {v : Nat} (hv : v ≠ 0) :
    parseDec ((Nat.digits 10 v).reverse.map (alphaChar 10)) = some v := by
  have hlt : ∀ d ∈ (Nat.digits 10 v).reverse, d < 10 := by
    intro d hd
    exact Nat.digits_lt_base (by omega) (List.mem_reverse.mp hd)
  have hne : (Nat.digits 10 v).reverse.map (alphaChar 10) ≠ [] := by
    simp [Nat.digits_ne_nil_iff_ne_zero, hv]
  have hall : ((Nat.digits 10 v).reverse.map (alphaChar 10)).all
      (fun c => '0' ≤ c && c ≤ '9') = true := by
    rw [List.all_eq_true]
    intro c hc
    obtain ⟨d, hd, rfl⟩ := List.mem_map.mp hc
    exact (alphaChar10_digit d (hlt d hd)).1
  unfold parseDec
  rw [if_pos ⟨hne, hall⟩, parseDec_foldl _ hlt 0]
  simp [Nat.ofDigits_digits]

theorem base_convert_to10 (s : List Char) (b : Nat) :
    base_convert s b 10 = some (toDecimal s b) := by
  unfold base_convert
  by_cases h0 : toDecimal s b = 0
  · simp [h0]
  · rw [if_neg h0, fromDecLoop_eq_digits (by omega) (by omega) _ _ _ le_rfl]
    simp only [List.append_nil, Option.bind_some]
    exact parseDec_render h0

/-! ## Supporting lemmas for the round trip -/

theorem ofDigits_all_zero {b : Nat} {L : List Nat} (h : ∀ d ∈ L, d = 0) :
    Nat.ofDigits b L = 0 := by
  induction L with
  | nil => rfl
  | cons d rest ih =>
    rw [Nat.ofDigits_cons, h d (List.mem_cons_self d rest),
      ih (fun x hx => h x (List.mem_cons_of_mem _ hx))]
    simp

theorem toDecimal_dropWhile_zeros {b : Nat} (hb : 1 ≤ b) (s : List Char) :
    toDecimal s b = toDecimal (s.dropWhile (fun c => c == '0')) b := by
  have hsplit := List.takeWhile_append_dropWhile (fun c => c == '0') s
  have hz : Nat.ofDigits b ((s.takeWhile (fun c => c == '0')).reverse.map (digitVal b)) = 0 := by
    apply ofDigits_all_zero
    intro d hd
    obtain ⟨c, hc, rfl⟩ := List.mem_map.mp hd
    have hc0 : c = '0' := by
      have := List.mem_takeWhile_imp (List.mem_reverse.mp hc)
      simpa using this
    rw [hc0, digitVal_zero_char hb]
  conv_lhs => rw [← hsplit]
  rw [toDecimal_eq_ofDigits, toDecimal_eq_ofDigits, List.reverse_append,
    List.map_append, Nat.ofDigits_append, hz]
  ring

theorem dropWhile_cons_head_not {p : Char → Bool} {l : List Char} {a : Char}
    {r : List Char} (h : l.dropWhile p = a :: r) : p a = false := by
  induction l with
  | nil => simp [List.dropWhile] at h
  | cons x xs ih =>
    rw [List.dropWhile_cons] at h
    by_cases hx : p x = true
    · rw [if_pos hx] at h
      exact ih h
    · rw [if_neg hx] at h
      injection h with h1 _
      rw [← h1]
      simpa using hx

/-- C2 core: the coupled halves of `_base_convert` invert each other up to the
canonical leading-zero collapse. -/
theorem roundtrip_core {b : Nat} {s : List Char} (hb : 2 ≤ b) (h64 : b ≤ 64)
    (hmem : ∀ c ∈ s, c ∈ alphaPrefix b) :
    fromDecimal (toDecimal s b) b = some (stripLeadingZeros s) := by
  cases ht : s.dropWhile (fun c => c == '0') with
  | nil =>
    have h0 : toDecimal s b = 0 := by
      rw [toDecimal_dropWhile_zeros (by omega) s, ht]
      rfl
    rw [h0, fromDecimal_zero (by omega)]
    simp [stripLeadingZeros, ht]
  | cons hd tl =>
    have htsub : ∀ c ∈ (hd :: tl : List Char), c ∈ alphaPrefix b := by
      intro c hc
      refine hmem c ((List.dropWhile_sublist (l := s) (fun c => c == '0')).subset ?_)
      rw [ht]
      exact hc
    have hhd : hd ≠ '0' := by
      have := dropWhile_cons_head_not ht
      simpa using this
    have hRlt : ∀ d ∈ (hd :: tl).reverse.map (digitVal b), d < b := by
      intro d hd'
      obtain ⟨c, hc, rfl⟩ := List.mem_map.mp hd'
      exact digitVal_lt h64 (htsub c (List.mem_reverse.mp hc))
    have hRsplit : (hd :: tl).reverse.map (digitVal b) =
        tl.reverse.map (digitVal b) ++ [digitVal b hd] := by
      simp
    have hlastq : ((hd :: tl).reverse.map (digitVal b)).getLast? = some (digitVal b hd) := by
      rw [hRsplit]
      simp
    have hlast : ∀ h : (hd :: tl).reverse.map (digitVal b) ≠ [],
        ((hd :: tl).reverse.map (digitVal b)).getLast h ≠ 0 := by
      intro h
      have h2 := List.getLast?_eq_getLast ((hd :: tl).reverse.map (digitVal b)) h
      rw [hlastq] at h2
      have h3 : ((hd :: tl).reverse.map (digitVal b)).getLast h = digitVal b hd :=
        (Option.some.injEq _ _ ▸ h2).symm
      rw [h3]
      exact digitVal_ne_zero (by omega) (htsub hd (List.mem_cons_self hd tl)) hhd
    have hdig : Nat.digits b (toDecimal (hd :: tl) b) = (hd :: tl).reverse.map (digitVal b) := by
      rw [toDecimal_eq_ofDigits]
      exact Nat.digits_ofDigits b (by omega) _ hRlt hlast
    have hvne : toDecimal (hd :: tl) b ≠ 0 := by
      intro h0
      rw [h0, Nat.digits_zero] at hdig
      simp at hdig
    have hst : toDecimal s b = toDecimal (hd :: tl) b := by
      rw [toDecimal_dropWhile_zeros (by omega) s, ht]
    rw [hst, fromDecimal_eq_digits hb h64 hvne, hdig]
    have hmapmap : (((hd :: tl).reverse.map (digitVal b)).reverse).map (alphaChar b) =
        hd :: tl := by
      rw [List.reverse_map, List.reverse_reverse, List.map_map]
      have hcong : ∀ c ∈ (hd :: tl : List Char), (alphaChar b ∘ digitVal b) c = id c := by
        intro c hc
        simp only [Function.comp_apply, id_eq, alphaChar]
        exact alphaGetD_digitVal (htsub c hc)
      rw [List.map_congr_left hcong, List.map_id]
    rw [hmapmap]
    simp [stripLeadingZeros, ht]

/-! ## Positional-value form of `toDecimal` -/

theorem digitVal_eq_index (b : Nat) (c : Char) :
    digitVal b c =
      if c ∈ alphaPrefix b then List.indexOf c (alphaPrefix b) else 0 := by
  by_cases h : c ∈ alphaPrefix b
  · rw [if_pos h]
    simp [digitVal, findPos_eq_indexOf h]
  · rw [if_neg h]
    simp [digitVal, findPos_none_of_not_mem h]

theorem toDecAux_sum (b : Nat) (r : List Char) (idx : Nat) :
    toDecAux b r idx =
      ∑ i ∈ Finset.range r.length, digitVal b (r.getD i ' ') * b ^ (idx + i) := by
  induction r generalizing idx with
  | nil => simp [toDecAux]
  | cons c rest ih =>
    rw [List.length_cons, Finset.sum_range_succ']
    simp only [toDecAux, ih (idx + 1)]
    have h1 : ∀ i, (c :: rest).getD (i + 1) ' ' = rest.getD i ' ' := fun i => rfl
    have h2 : (c :: rest).getD 0 ' ' = c := rfl
    simp only [h1, h2]
    have hs : ∑ i ∈ Finset.range rest.length, digitVal b (rest.getD i ' ') * b ^ (idx + 1 + i)
        = ∑ i ∈ Finset.range rest.length, digitVal b (rest.getD i ' ') * b ^ (idx + (i + 1)) :=
      Finset.sum_congr rfl (fun i _ => by
        have he : idx + 1 + i = idx + (i + 1) := by omega
        rw [he])
    rw [hs, Nat.add_zero]
    exact Nat.add_comm _ _

theorem getD_reverse {l : List Char} {i : Nat} (h : i < l.length) (d : Char) :
    l.reverse.getD i d = l.getD (l.length - 1 - i) d := by
  rw [List.getD_eq_get?, List.getD_eq_get?, List.get?_eq_getElem?, List.get?_eq_getElem?,
    List.getElem?_reverse h]

theorem toDecimal_msf_sum (s : List Char) (b : Nat) :
    toDecimal s b =
      ∑ i ∈ Finset.range s.length,
        digitVal b (s.getD i ' ') * b ^ (s.length - 1 - i) := by
  rw [toDecimal, toDecAux_sum, List.length_reverse]
  rw [← Finset.sum_range_reflect (fun i => digitVal b (s.getD i ' ') * b ^ (s.length - 1 - i))]
  apply Finset.sum_congr rfl
  intro i hi
  have hi' : i < s.length := Finset.mem_range.mp hi
  rw [getD_reverse hi' ' ']
  congr 1
  have : s.length - 1 - (s.length - 1 - i) = i := by omega
  rw [this, Nat.zero_add]

/-! ## Scan-loop lemmas -/

theorem decodeFuel_congr {val1 val2 : List Char → Option Nat}
    (h : ∀ seg, val1 seg = val2 seg) (key : List Char) (offset delimIdx : Nat) :
    ∀ (fuel : Nat) (l : List Char),
      decodeFuel val1 key offset delimIdx fuel l =
        decodeFuel val2 key offset delimIdx fuel l := by
  intro fuel
  induction fuel with
  | zero =>
    intro l
    cases l <;> rfl
  | succ f ih =>
    intro l
    cases l with
    | nil => rfl
    | cons c rest =>
      simp only [decodeFuel]
      cases key.get? delimIdx with
      | none => rfl
      | some delim =>
        simp only [h]
        cases val2 (substitute key ((c :: rest).takeWhile (fun x => x ≠ delim))) with
        | none => rfl
        | some v =>
          simp only [ih]

theorem segcodesOk_decode {val : List Char → Option Nat} {key : List Char}
    {offset delimIdx : Nat} :
    ∀ {fuel : Nat} {l : List Char},
      segcodesOk val key offset delimIdx fuel l = true →
      ∃ out, decodeFuel val key offset delimIdx fuel l = some out := by
  intro fuel
  induction fuel with
  | zero =>
    intro l h
    cases l with
    | nil => exact ⟨[], rfl⟩
    | cons c rest => simp [segcodesOk] at h
  | succ f ih =>
    intro l h
    cases l with
    | nil => exact ⟨[], rfl⟩
    | cons c rest =>
      simp only [segcodesOk] at h
      simp only [decodeFuel]
      cases hk : key.get? delimIdx with
      | none => rw [hk] at h; simp at h
      | some delim =>
        rw [hk] at h
        simp only at h
        cases hv : val (substitute key ((c :: rest).takeWhile (fun x => x ≠ delim))) with
        | none => rw [hv] at h; simp at h
        | some v =>
          rw [hv] at h
          simp only [Bool.and_eq_true, decide_eq_true_eq] at h
          obtain ⟨⟨hlo, hhi⟩, hrest⟩ := h
          obtain ⟨out, hout⟩ := ih hrest
          refine ⟨((v : Int) - (offset : Int)).toNat :: out, ?_⟩
          simp only [hv]
          have hcond : (0 : Int) ≤ (v : Int) - (offset : Int) ∧
              (v : Int) - (offset : Int) ≤ 1114111 := by omega
          rw [if_pos hcond, hout]
          rfl

/-! ## Retry-loop lemmas for `decode_kwik_page` -/

theorem decode_kwik_page_env_agree (env env' : Nat → AttemptOutcome) :
    ∀ (r i : Nat), (∀ k, i ≤ k → k < i + r → env k = env' k) →
      decode_kwik_page env i r = decode_kwik_page env' i r := by
  intro r
  induction r with
  | zero => intro i _; rfl
  | succ n ih =>
    intro i h
    have h0 : env' i = env i := (h i le_rfl (by omega)).symm
    have hshift : ∀ k, i + 1 ≤ k → k < i + 1 + n → env k = env' k := by
      intro k h1 h2
      exact h k (by omega) (by omega)
    cases he : env i with
    | fatalError m => simp [decode_kwik_page, he, h0]
    | patternNotFound => simp [decode_kwik_page, he, h0, ih (i + 1) hshift]
    | fieldsNotFound => simp [decode_kwik_page, he, h0, ih (i + 1) hshift]
    | bodyError m => simp [decode_kwik_page, he, h0, ih (i + 1) hshift]
    | resolved link => simp [decode_kwik_page, he, h0]

theorem decode_kwik_page_exhaust (env : Nat → AttemptOutcome) :
    ∀ (r i : Nat), (∀ k, i ≤ k → k < i + r →
        env k = AttemptOutcome.patternNotFound ∨ env k = AttemptOutcome.fieldsNotFound) →
      decode_kwik_page env i r = .error "Exceeded retry limit for Kwik decode" := by
  intro r
  induction r with
  | zero => intro i _; rfl
  | succ n ih =>
    intro i h
    have hshift : ∀ k, i + 1 ≤ k → k < i + 1 + n →
        env k = AttemptOutcome.patternNotFound ∨ env k = AttemptOutcome.fieldsNotFound := by
      intro k h1 h2
      exact h k (by omega) (by omega)
    rcases h i le_rfl (by omega) with he | he <;>
      simp [decode_kwik_page, he, ih (i + 1) hshift]

/-! ## Drain-loop and notifier lemmas -/

theorem drainCancel_eq (tid : String) (l : List DTask) :
    drainCancel tid l =
      (l.filter (fun t => !(t.id == tid)),
       (l.filter (fun t => t.id == tid)).map cancelMark,
       l.any (fun t => t.id == tid)) := by
  induction l with
  | nil => rfl
  | cons t rest ih =>
    simp only [drainCancel, ih]
    by_cases h : t.id = tid
    · simp [h, cancelMark, List.filter_cons, List.any_cons]
    · simp [h, List.filter_cons, List.any_cons]

theorem length_filter_not_add {α : Type} (p : α → Bool) (l : List α) :
    (l.filter (fun a => !(p a))).length + l.countP p = l.length := by
  induction l with
  | nil => rfl
  | cons a rest ih =>
    by_cases h : p a
    · simp [List.filter_cons, List.countP_cons, h]
      omega
    · simp [List.filter_cons, List.countP_cons, h]
      omega

theorem notifyLoop_map (t : DTask) (cbs : List (DTask → Except String Unit)) :
    notifyLoop t cbs = cbs.map (fun cb => cb t) := by
  induction cbs with
  | nil => rfl
  | cons cb rest ih => simp [notifyLoop, ih]

/-! ## Claim theorems -/

/-- C1 (counterexample): at encoded `"bbc"`, key `"abc"`, offset 0, delimiter
index 2, the source decoder yields code point 3 — the segment `"bb"`
substitutes to `"11"` and is read in base 2, the delimiter index — while the
claim, which feeds the segment to `toDecimal` with source base 10, would yield
code point 11.  The two disagree, refuting the claim as stated. -/
theorem c1_counterexample :
    decode_obfuscated_js "bbc".data "abc".data 0 2 = some [3] ∧
    decodeClaimC1 "bbc".data "abc".data 0 2 = some [11] ∧
    decode_obfuscated_js "bbc".data "abc".data 0 2 ≠
      decodeClaimC1 "bbc".data "abc".data 0 2 := by
  refine ⟨by decide, by decide, by decide⟩

/-- C1 (amended): for every encoded string, key, offset and delimiter index,
`decode_obfuscated_js` scans left to right splitting at `key[delimiterIndex]`
(consumed, never emitted), substitutes every `key[j]` by the decimal digits of
`j`, feeds the substituted segment to `AlphabetCodec.toDecimal` with source
base equal to the **delimiter index** (not 10), subtracts the offset,
interprets the result as one code point, and repeats until the input is
exhausted. -/
theorem c1_decode_uses_delimiter_index_as_base
    (encoded key : List Char) (offset base : Nat) :
    decode_obfuscated_js encoded key offset base =
      decodeAmendedC1 encoded key offset base :=
  decodeFuel_congr (fun seg => base_convert_to10 seg base) key offset base
    encoded.length encoded

/-- C2: for every base `b ∈ [2,64]` and every non-empty digit string `s` drawn
from the first `b` symbols of the fixed 64-character alphabet,
`fromDecimal (toDecimal s b) b` equals `s` after stripping leading
zero-symbols (an all-zero numeral collapsing to the single zero symbol, per
the positional-numeral semantics the specification invokes). -/
theorem c2_alphabet_codec_roundtrip (b : Nat) (s : List Char)
    (hb : 2 ≤ b) (h64 : b ≤ 64) (_hne : s ≠ [])
    (hmem : ∀ c ∈ s, c ∈ alphaPrefix b) :
    fromDecimal (toDecimal s b) b = some (stripLeadingZeros s) :=
  roundtrip_core hb h64 hmem

/-- C2 (witness): the round trip evaluated at `s = "0ff"`, `b = 16`. -/
theorem c2_witness : fromDecimal (toDecimal "0ff".data 16) 16 = some "ff".data := by
  have h := c2_alphabet_codec_roundtrip 16 "0ff".data (by decide) (by decide)
    (by decide) (by decide)
  rw [show stripLeadingZeros "0ff".data = "ff".data from by decide] at h
  exact h

/-- C5: for every digit string and every source base `b ∈ [2,64]`, `toDecimal`
returns the sum, over the positions of the string read most-significant-first,
of the index of the character in the first `b` alphabet symbols (zero
magnitude for a character not present in the truncated alphabet — no error)
times `b` raised to the position counted from the end. -/
theorem c5_toDecimal_positional (s : List Char) (b : Nat)
    (_hb : 2 ≤ b) (_h64 : b ≤ 64) :
    toDecimal s b =
      ∑ i ∈ Finset.range s.length,
        (if s.getD i ' ' ∈ alphaPrefix b
          then List.indexOf (s.getD i ' ') (alphaPrefix b) else 0) *
          b ^ (s.length - 1 - i) := by
  rw [toDecimal_msf_sum]
  exact Finset.sum_congr rfl (fun i _ => by rw [digitVal_eq_index])

/-- C5 (witness): the positional form evaluated at `s = "1z"`, `b = 62`
(`'1'` has index 1, `'z'` index 35: value 97). -/
theorem c5_witness :
    toDecimal "1z".data 62 =
      ∑ i ∈ Finset.range ("1z".data.length),
        (if "1z".data.getD i ' ' ∈ alphaPrefix 62
          then List.indexOf ("1z".data.getD i ' ') (alphaPrefix 62) else 0) *
          62 ^ ("1z".data.length - 1 - i) :=
  c5_toDecimal_positional "1z".data 62 (by decide) (by decide)

/-- C6: for every target base `b ∈ [2,64]`, `fromDecimal` applied to 0 returns
the first symbol of the target alphabet — the one-character string `"0"`, not
the empty string — and `fromDecimal` has no error case: it returns a string
for every value.  (`toDecimal` is a total Lean function by construction, which
settles its half of the no-error-cases clause.) -/
theorem c6_fromDecimal_zero_total (b : Nat) (hb : 2 ≤ b) (h64 : b ≤ 64) :
    fromDecimal 0 b = some ['0'] ∧ ∀ v : Nat, ∃ l, fromDecimal v b = some l := by
  refine ⟨fromDecimal_zero (by omega), ?_⟩
  intro v
  by_cases hv : v = 0
  · exact ⟨['0'], hv ▸ fromDecimal_zero (by omega)⟩
  · exact ⟨(Nat.digits b v).reverse.map (alphaChar b), fromDecimal_eq_digits hb h64 hv⟩

/-- C6 (witness): the zero case evaluated at `b = 16`. -/
theorem c6_witness : fromDecimal 0 16 = some ['0'] :=
  (c6_fromDecimal_zero_total 16 (by decide) (by decide)).1

/-- C3 (counterexample): a 302 response that carries a `Location` header whose
value is the empty string is rejected by `fetch_direct_link` — Python
truthiness at `if location:` — whereas the claim, for which carrying the
header suffices, would have the call succeed with that value. -/
theorem c3_counterexample :
    fetch_direct_link ⟨302, some ""⟩ =
      Except.error "No redirect found from Kwik POST (status: 302)" ∧
    fetch_direct_link ⟨302, some ""⟩ ≠ Except.ok "" := by
  constructor
  · rfl
  · intro h
    rw [show fetch_direct_link ⟨302, some ""⟩ =
      Except.error "No redirect found from Kwik POST (status: 302)" from rfl] at h
    exact Except.noConfusion h

/-- C3 (amended): the token POST of the link resolver, performed with
redirects disabled, succeeds if and only if the response status is exactly 302
and carries a **non-empty** `Location` header, in which case the resolved URL
is that header value; any other response — including any other status, a
missing header, or an empty header value — is a failure raising the
resolution error that triggers the retry path, never a success. -/
theorem c3_fetch_direct_link_ok_iff (resp : TokenPostResponse) (loc : String) :
    fetch_direct_link resp = Except.ok loc ↔
      resp.status = 302 ∧ resp.location = some loc ∧ loc ≠ "" := by
  obtain ⟨status, location⟩ := resp
  by_cases h302 : status = 302
  · subst h302
    cases location with
    | none => simp [fetch_direct_link]
    | some l =>
      by_cases hl : l = ""
      · subst hl
        simp [fetch_direct_link]
        exact fun h => h.symm
      · have hred : fetch_direct_link ⟨302, some l⟩ = Except.ok l := by
          simp [fetch_direct_link, hl]
        rw [hred]
        constructor
        · intro h
          injection h with h
          subst h
          exact ⟨rfl, rfl, hl⟩
        · rintro ⟨-, h2, -⟩
          injection h2 with h2
          rw [h2]
  · simp only [fetch_direct_link]
    rw [if_neg h302]
    simp [h302]

/-- C4 (counterexample): not every transport-failed attempt is retried with a
fresh fetch.  A transport error during the initial GET is absorbed by
`_fetch_with_retry` (its own 3-attempt budget, kwik.py 95-112) and reaches
`decode_kwik_page` as a `KwikDecodeError`, which the handler at kwik.py
217-218 re-raises at once.  Concretely: attempt 0 fails that way while every
later attempt would resolve to a direct link, yet the run terminates with the
fetch error — no state is discarded, no fresh payload or cookies are ever
re-fetched, with four attempts of budget still unused — where the claim, for
which a transport-failed attempt re-fetches like the pattern-absent ones,
predicts resolution. -/
theorem c4_counterexample :
    decode_kwik_page
      (fun k => if k = 0 then
          AttemptOutcome.fatalError "Failed to fetch url after 3 attempts: ConnectError"
        else AttemptOutcome.resolved "http://direct") 0 5 =
      .error "Failed to fetch url after 3 attempts: ConnectError" ∧
    decode_kwik_page
      (fun k => if k = 0 then
          AttemptOutcome.fatalError "Failed to fetch url after 3 attempts: ConnectError"
        else AttemptOutcome.resolved "http://direct") 0 5 ≠
      Except.ok "http://direct" := by
  constructor
  · rfl
  · intro h
    rw [show decode_kwik_page
      (fun k => if k = 0 then
          AttemptOutcome.fatalError "Failed to fetch url after 3 attempts: ConnectError"
        else AttemptOutcome.resolved "http://direct") 0 5 =
      Except.error "Failed to fetch url after 3 attempts: ConnectError" from rfl] at h
    exact Except.noConfusion h

/-- C4 (amended): the resolution from the intermediate fetch performs at most
5 attempts — the result of `decode_kwik_page` with budget 5 depends only on
the first five attempt environments, so no sixth fetch can ever be consulted
(conjunct 1); a run whose every attempt fails with pattern absent or form
fields absent terminates with the descriptive resolution-failure error
`"Exceeded retry limit for Kwik decode"` (conjunct 2); an attempt failing
with pattern absent or form fields absent restarts the computation at the
*fresh* attempt `i + 1` with nothing of attempt `i` retained (conjunct 3);
an attempt failing with any other in-body exception — such as a transport
error surfacing from the token POST itself — likewise restarts freshly, but
only while more than one attempt of budget remains (conjunct 4); at the final
budgeted attempt such an in-body exception instead raises the wrapped
descriptive error (conjunct 5); and an attempt whose fetch machinery raises
`KwikDecodeError` — a GET transport error that already exhausted the inner
`_fetch_with_retry` budget, or a non-302 token POST — aborts the resolution
immediately, consuming none of the remaining budget (conjunct 6).
Termination holds by construction: the model recurses on the strictly
decreasing budget, every terminal branch carrying a descriptive cause. -/
theorem c4_decode_kwik_page_budget :
    (∀ env env' : Nat → AttemptOutcome, (∀ k, k < 5 → env k = env' k) →
      decode_kwik_page env 0 5 = decode_kwik_page env' 0 5) ∧
    (∀ env : Nat → AttemptOutcome,
      (∀ k, k < 5 → env k = AttemptOutcome.patternNotFound ∨
        env k = AttemptOutcome.fieldsNotFound) →
      decode_kwik_page env 0 5 = .error "Exceeded retry limit for Kwik decode") ∧
    (∀ (env : Nat → AttemptOutcome) (i r : Nat),
      env i = AttemptOutcome.patternNotFound ∨ env i = AttemptOutcome.fieldsNotFound →
      decode_kwik_page env i (r + 1) = decode_kwik_page env (i + 1) r) ∧
    (∀ (env : Nat → AttemptOutcome) (i r : Nat) (msg : String),
      env i = AttemptOutcome.bodyError msg →
      decode_kwik_page env i (r + 2) = decode_kwik_page env (i + 1) (r + 1)) ∧
    (∀ (env : Nat → AttemptOutcome) (i : Nat) (msg : String),
      env i = AttemptOutcome.bodyError msg →
      decode_kwik_page env i 1 = .error ("Failed to decode Kwik page: " ++ msg)) ∧
    (∀ (env : Nat → AttemptOutcome) (i r : Nat) (msg : String),
      env i = AttemptOutcome.fatalError msg →
      decode_kwik_page env i (r + 1) = .error msg) := by
  refine ⟨?_, ?_, ?_, ?_, ?_, ?_⟩
  · intro env env' h
    exact decode_kwik_page_env_agree env env' 5 0 (fun k _ hk2 => h k (by omega))
  · intro env h
    exact decode_kwik_page_exhaust env 5 0 (fun k _ hk2 => h k (by omega))
  · intro env i r h
    rcases h with he | he <;> simp [decode_kwik_page, he]
  · intro env i r msg he
    have hgt : r + 1 + 1 > 1 := by omega
    simp [decode_kwik_page, he, hgt]
  · intro env i msg he
    have hng : ¬(0 + 1 > 1) := by omega
    simp [decode_kwik_page, he, hng]
  · intro env i r msg he
    simp [decode_kwik_page, he]

/-- C4 (witness): a run that always fails to find the pattern exhausts the
budget with the descriptive error; changing the environment from the sixth
attempt on cannot change the outcome; an in-body transport error at the final
budgeted attempt raises the wrapped cause; and a fetch-level
`KwikDecodeError` aborts at once with its own message. -/
theorem c4_witness :
    decode_kwik_page (fun _ => AttemptOutcome.patternNotFound) 0 5 =
      .error "Exceeded retry limit for Kwik decode" ∧
    decode_kwik_page (fun _ => AttemptOutcome.patternNotFound) 0 5 =
      decode_kwik_page
        (fun k => if k < 5 then AttemptOutcome.patternNotFound
          else AttemptOutcome.resolved "unreachable") 0 5 ∧
    decode_kwik_page (fun _ => AttemptOutcome.bodyError "ConnectError") 0 1 =
      .error "Failed to decode Kwik page: ConnectError" ∧
    decode_kwik_page (fun _ => AttemptOutcome.fatalError "boom") 0 5 =
      .error "boom" := by
  refine ⟨?_, ?_, ?_, ?_⟩
  · exact c4_decode_kwik_page_budget.2.1 _ (fun k _ => Or.inl rfl)
  · exact c4_decode_kwik_page_budget.1 _ _ (fun k hk => by simp [hk])
  · exact c4_decode_kwik_page_budget.2.2.2.2.1 _ 0 "ConnectError" rfl
  · exact c4_decode_kwik_page_budget.2.2.2.2.2 _ 0 4 "boom" rfl

/-- C7 (counterexample): `decode_obfuscated_js` is not total.  At encoded
`"0"`, key `"0"`, offset 1, delimiter index 0, the single (empty) segment
converts to 0 and `chr(0 - 1)` raises `ValueError` — the call raises instead
of returning a string, refuting the for-every-input totality claim. -/
theorem c7_counterexample :
    decode_obfuscated_js "0".data "0".data 1 0 = none := by decide

/-- C7 (amended): `decode_obfuscated_js` returns a (possibly truncated or
garbled) string without raising for every input whose delimiter lookups stay
inside the key and whose every segment code point lies in the interval
`[0, 0x10FFFF]` accepted by `chr` (first conjunct); in particular a
key/delimiter-index pair whose delimiter never appears in the encoded string
does not raise: the whole input forms one segment and decodes to the single
code point it denotes (second conjunct).  Outside those conditions the
function can raise — see the counterexample — so callers detect failure by
the absence of expected markers only on the non-raising inputs. -/
theorem c7_decode_total_on_wellformed :
    (∀ (encoded key : List Char) (offset base : Nat),
      segcodesOk (fun seg => base_convert seg base 10) key offset base
        encoded.length encoded = true →
      ∃ out, decode_obfuscated_js encoded key offset base = some out) ∧
    (∀ (encoded key : List Char) (offset base : Nat),
      base < key.length →
      (∀ c ∈ encoded, c ≠ key.getD base ' ') →
      offset ≤ toDecimal (substitute key encoded) base →
      toDecimal (substitute key encoded) base ≤ offset + 1114111 →
      encoded ≠ [] →
      decode_obfuscated_js encoded key offset base =
        some [toDecimal (substitute key encoded) base - offset]) := by
  constructor
  · intro encoded key offset base h
    exact segcodesOk_decode h
  · intro encoded key offset base hk hnd hlo hhi hne
    cases encoded with
    | nil => exact absurd rfl hne
    | cons c rest =>
      have hget : key.get? base = some (key.getD base ' ') := get?_of_lt_length hk ' '
      have htake : (c :: rest).takeWhile (fun x => x ≠ key.getD base ' ') = c :: rest :=
        List.takeWhile_eq_self_iff.mpr (fun x hx => by simpa using hnd x hx)
      show decodeFuel (fun seg => base_convert seg base 10) key offset base
        ((c :: rest).length) (c :: rest) = _
      rw [List.length_cons]
      simp only [decodeFuel, hget, htake, base_convert_to10]
      have hcond : (0 : Int) ≤ (toDecimal (substitute key (c :: rest)) base : Int) -
          (offset : Int) ∧
          (toDecimal (substitute key (c :: rest)) base : Int) - (offset : Int) ≤ 1114111 := by
        omega
      rw [if_pos hcond, List.drop_eq_nil_of_le (by simp)]
      have hfin : decodeFuel (fun seg => some (toDecimal seg base)) key offset base
          rest.length ([] : List Char) = some [] := by
        cases rest.length <;> rfl
      rw [hfin]
      have htn : ((toDecimal (substitute key (c :: rest)) base : Int) -
          (offset : Int)).toNat = toDecimal (substitute key (c :: rest)) base - offset := by
        omega
      simp [htn]

/-- C7 (witness): the delimiter-never-appears case at encoded `"11"`, key
`"ab"` (delimiter `key[1] = b` absent from the input), offset 0, shown both
through the well-formedness conjunct and through the single-segment
conjunct — the whole input is one segment and decodes to one code point. -/
theorem c7_witness :
    (∃ out, decode_obfuscated_js "11".data "ab".data 0 1 = some out) ∧
    decode_obfuscated_js "11".data "ab".data 0 1 = some [0] := by
  constructor
  · exact c7_decode_total_on_wellformed.1 "11".data "ab".data 0 1 (by decide)
  · have h := c7_decode_total_on_wellformed.2 "11".data "ab".data 0 1
      (by decide) (by decide) (by decide) (by decide) (by decide)
    rw [show toDecimal (substitute "ab".data "11".data) 1 - 0 = 0 from by decide] at h
    exact h

/-- C8 (counterexample): the cause string the code attaches to a cancelled
pending task is `"Cancelled before starting"` (downloader.py line 331,
capital C), not the `"cancelled before starting"` the claim states — at the
concrete two-task state the single moved entry carries the capitalised
cause, which differs from the claimed string. -/
theorem c8_counterexample :
    (cancel_task sampleState "task-a").2.failed.map (fun t => t.error) =
      [some "Cancelled before starting"] ∧
    some "Cancelled before starting" ≠ some "cancelled before starting" := by
  refine ⟨by decide, by decide⟩

/-- C8 (amended): for a task id that names a pending task (exactly one queue
entry carries the id, and the id is not active), `cancel_task` returns `true`,
leaves the other pending tasks in the queue in their order (the queue becomes
the order-preserving filter), appends exactly the one marked entry to
failed-history — status `"stopped"`, cause `"Cancelled before starting"`
(capital C), so no transfer was ever started — leaves active and completed
untouched, and the pending count drops by exactly one; for an id present
neither in the queue nor in the active set it returns `false` and changes
nothing. -/
theorem c8_cancel_pending (st : DMState) (tid : String) :
    ((st.active.map Prod.fst).contains tid = false →
      st.queue.countP (fun t => t.id == tid) = 1 →
      ∃ t, t ∈ st.queue ∧ t.id = tid ∧
        cancel_task st tid =
          (true, { st with queue := st.queue.filter (fun u => !(u.id == tid)),
                           failed := st.failed ++ [cancelMark t] }) ∧
        (cancel_task st tid).2.queue.length + 1 = st.queue.length) ∧
    ((st.active.map Prod.fst).contains tid = false →
      st.queue.countP (fun t => t.id == tid) = 0 →
      cancel_task st tid = (false, st)) := by
  constructor
  · intro hact hcount
    have hfilter1 : (st.queue.filter (fun t => t.id == tid)).length = 1 := by
      rw [← List.countP_eq_length_filter]
      exact hcount
    obtain ⟨t, hft⟩ := List.length_eq_one.mp hfilter1
    have htmem : t ∈ st.queue ∧ (t.id == tid) = true :=
      List.mem_filter.mp (hft ▸ List.mem_singleton_self t)
    have hany : st.queue.any (fun t => t.id == tid) = true :=
      List.any_eq_true.mpr ⟨t, htmem.1, htmem.2⟩
    have heq : cancel_task st tid =
        (true, { st with queue := st.queue.filter (fun u => !(u.id == tid)),
                         failed := st.failed ++ [cancelMark t] }) := by
      unfold cancel_task
      rw [if_neg (by rw [hact]; simp)]
      simp only [drainCancel_eq, hft, hany, List.map_cons, List.map_nil]
    refine ⟨t, htmem.1, by simpa using htmem.2, heq, ?_⟩
    rw [heq]
    have hlen := length_filter_not_add (fun t => t.id == tid) st.queue
    rw [hcount] at hlen
    simpa using hlen
  · intro hact hcount0
    have hfilter0 : st.queue.filter (fun t => t.id == tid) = [] := by
      rw [← List.length_eq_zero, ← List.countP_eq_length_filter]
      exact hcount0
    have hall : ∀ a ∈ st.queue, (!(a.id == tid)) = true := by
      intro a ha
      have := List.countP_eq_zero.mp hcount0 a ha
      simpa using this
    have hany : st.queue.any (fun t => t.id == tid) = false := by
      rw [List.any_eq_false]
      intro x hx
      have := List.countP_eq_zero.mp hcount0 x hx
      simpa using this
    unfold cancel_task
    rw [if_neg (by rw [hact]; simp)]
    simp only [drainCancel_eq, hfilter0, hany, List.map_nil, List.append_nil,
      List.filter_eq_self.mpr hall]

/-- C8 (witness): at the concrete two-task state, cancelling the pending
`"task-a"` drops the pending count from 2 to 1, and cancelling an id that is
nowhere returns `false` with the state unchanged. -/
theorem c8_witness :
    (cancel_task sampleState "task-a").2.queue.length + 1 =
      sampleState.queue.length ∧
    cancel_task sampleState "no-such-task" = (false, sampleState) := by
  constructor
  · obtain ⟨t, -, -, -, hlen⟩ :=
      (c8_cancel_pending sampleState "task-a").1 (by decide) (by decide)
    exact hlen
  · exact (c8_cancel_pending sampleState "no-such-task").2 (by decide) (by decide)

/-- C9 (counterexample): a subscriber whose handler raises is **not** pruned:
publishing to the pair [raising, ok] leaves the subscriber list exactly as it
was — still of length two, the raising handler still first — even though that
handler raised on this very event, refuting the pruning part of the claim. -/
theorem c9_counterexample :
    (notify_progress [raisingHandler, okHandler] sampleTask).1 =
      [raisingHandler, okHandler] ∧
    raisingHandler sampleTask = Except.error "boom" ∧
    (notify_progress [raisingHandler, okHandler] sampleTask).2 =
      [Except.error "boom", Except.ok ()] :=
  ⟨rfl, rfl, rfl⟩

/-- C9 (amended): when the progress bus publishes a task, a subscriber whose
handler raises is *left subscribed* (the list is unchanged — no pruning
happens in `_notify_progress`); its failure neither prevents delivery of the
same event to every other subscriber — subscriber `i` always receives the
event and its outcome depends only on its own handler — nor propagates an
error to the publisher, which receives the reified outcome list and returns
normally. -/
theorem c9_notify_progress_no_prune
    (cbs : List (DTask → Except String Unit)) (t : DTask) (i : Nat) :
    (notify_progress cbs t).1 = cbs ∧
    (notify_progress cbs t).2.length = cbs.length ∧
    (notify_progress cbs t).2.get? i = (cbs.get? i).map (fun cb => cb t) := by
  refine ⟨rfl, ?_, ?_⟩
  · simp [notify_progress, notifyLoop_map]
  · simp [notify_progress, notifyLoop_map, List.get?_map]

/-- C10 (counterexample): the stored task filename is *not* passed through the
sanitizer when no Content-Disposition override arrives: with root `"r"`, group
label `"t"` and stored filename `"a/b"`, the worker opens `"r/t/a/b"` — a path
that differs from the one the claim mandates (sanitising the filename would
give `"r/t/ab"`), and whose file does not lie directly under `"r/t"`. -/
theorem c10_counterexample :
    download_filepath "r".data "t".data "a/b".data none = "r/t/a/b".data ∧
    sanitize_filename "a/b".data = "ab".data ∧
    download_filepath "r".data "t".data "a/b".data none ≠
      osJoin (get_anime_folder "r".data "t".data) (sanitize_filename "a/b".data) := by
  refine ⟨by decide, by decide, by decide⟩

/-- C10 (amended): the sanitizer removes exactly the characters in the set
`< > : " / \ | ? *` and keeps every other character in order (the result is a
sublist); the group-label folder name is always sanitized; the task filename
is passed through the sanitizer exactly when a Content-Disposition filename
overrides it, in which case the written file lies directly under
`<root>/<sanitized label>/` (the sanitized name contains no separator); with
no override the stored filename is joined as-is, so containment holds only
when that name itself is separator-free. -/
theorem c10_sanitize_and_paths (s : List Char) (c : Char)
    (root title fname cdn : List Char) :
    (c ∈ sanitize_filename s ↔ c ∈ s ∧ c ∉ invalidChars) ∧
    (sanitize_filename s).Sublist s ∧
    ('/' : Char) ∉ sanitize_filename cdn ∧
    ('\\' : Char) ∉ sanitize_filename cdn ∧
    download_filepath root title fname (some cdn) =
      get_anime_folder root title ++ '/' :: sanitize_filename cdn ∧
    download_filepath root title fname none =
      osJoin (get_anime_folder root title) fname := by
  have hmem : ∀ (x : Char) (l : List Char),
      x ∈ sanitize_filename l ↔ x ∈ l ∧ x ∉ invalidChars := by
    intro x l
    simp [sanitize_filename, List.mem_filter]
  have hsl : ('/' : Char) ∉ sanitize_filename cdn := by
    intro h
    exact ((hmem '/' cdn).mp h).2 (by decide)
  refine ⟨hmem c s, List.filter_sublist s, hsl, ?_, ?_, rfl⟩
  · intro h
    exact ((hmem '\\' cdn).mp h).2 (by decide)
  · show osJoin (get_anime_folder root title) (sanitize_filename cdn) = _
    unfold osJoin
    rw [if_neg ?hhead]
    case hhead =>
      intro hh
      cases hsc : sanitize_filename cdn with
      | nil => rw [hsc] at hh; simp at hh
      | cons a r =>
        rw [hsc] at hh
        simp at hh
        exact hsl (by rw [hsc, hh]; exact List.mem_cons_self '/' r)

end AnimepaheDL
